import Mathlib

/- Verification of the PSA animation importer (io_scene_psk_psa/psa/importer.py).
   The embedding models: the per-channel keyframe reducer (import_psa, lines
   169-183), the world-to-local key conversion (calculate_fcurve_data, lines
   44-59), the per-bone rest-pose setup (lines 97-118), the PSA-to-armature
   bone mapping (lines 62-95), the keyframe write matrix and emission stage
   (lines 155-198), and the per-sequence action bookkeeping (lines 120-207).
   Scalar animation data is modelled with exact rationals. -/

namespace PsaImport

/- Quaternions with rational components. `qmul` is the Hamilton product
   (Blender's mul_qt_qtqt). mathutils `a.rotate(b)` composes the rotations,
   i.e. `a := b * a` on quaternion representatives; it is embedded by `qrot`.
   `Vector.rotate(q)` applies the rotation of the (unit) quaternion `q` to a
   vector, embedded as conjugation `q * v * conj q` on pure quaternions. -/

@[ext]
structure Quat where
  w : ℚ
  x : ℚ
  y : ℚ
  z : ℚ
  deriving DecidableEq

def qmul (a b : Quat) : Quat :=
  ⟨a.w * b.w - a.x * b.x - a.y * b.y - a.z * b.z,
   a.w * b.x + a.x * b.w + a.y * b.z - a.z * b.y,
   a.w * b.y - a.x * b.z + a.y * b.w + a.z * b.x,
   a.w * b.z + a.x * b.y - a.y * b.x + a.z * b.w⟩

def qconj (a : Quat) : Quat := ⟨a.w, -a.x, -a.y, -a.z⟩

/- `qrot a b` is the value of `a` after the mathutils call `a.rotate(b)`. -/
def qrot (a b : Quat) : Quat := qmul b a

@[ext]
structure V3 where
  x : ℚ
  y : ℚ
  z : ℚ
  deriving DecidableEq

def vsub (a b : V3) : V3 := ⟨a.x - b.x, a.y - b.y, a.z - b.z⟩

def pure_quat (v : V3) : Quat := ⟨0, v.x, v.y, v.z⟩

def quat_im (q : Quat) : V3 := ⟨q.x, q.y, q.z⟩

/- `vrot v q` is the value of `v` after the mathutils call `v.rotate(q)`. -/
def vrot (v : V3) (q : Quat) : V3 := quat_im (qmul (qmul q (pure_quat v)) (qconj q))

/- ------------------------------------------------------------------ -/
/- Keyframe reducer (importer.py lines 169-183).  One channel is the
   time series sequence_data_matrix[:, bone_index, fcurve_index].  The
   source loop is:
     last_written_datum = 0
     for frame_index, datum in enumerate(fcurve_frame_data):
       if frame_index > 0 and abs(datum - last_written_datum) < threshold:
         keyframe_write_matrix[frame_index, bone_index, fcurve_index] = 0
       else:
         last_written_datum = datum
   `clean_frames t last i xs` is that loop with counter starting at `i`;
   a `true` mark means the write-matrix entry stays 1. -/

def clean_threshold : ℚ := 1 / 1000

/- Absolute value written so that the kernel can evaluate it on concrete
   rationals; `rabs_eq_abs` below identifies it with `|·|`. -/
def rabs (x : ℚ) : ℚ := if x < 0 then -x else x

def clean_frames (t : ℚ) : ℚ → ℕ → List ℚ → List Bool
  | _, _, [] => []
  | last, i, x :: xs =>
    if 0 < i ∧ rabs (x - last) < t then false :: clean_frames t last (i + 1) xs
    else true :: clean_frames t x (i + 1) xs

def clean_channel (t : ℚ) (xs : List ℚ) : List Bool := clean_frames t 0 0 xs

/- The loop restricted to frames of index at least 1, where the
   `frame_index > 0` test is always true. -/
def clean_tail (t : ℚ) : ℚ → List ℚ → List Bool
  | _, [] => []
  | last, x :: xs =>
    if rabs (x - last) < t then false :: clean_tail t last xs
    else true :: clean_tail t x xs

/- The value of `last_written_datum` when the tail loop with initial value
   `a` reaches element number `k` of the channel. -/
def last_written_state (t : ℚ) : ℚ → List ℚ → ℕ → ℚ
  | a, _, 0 => a
  | a, [], _ + 1 => a
  | a, x :: xs, k + 1 => last_written_state t (if rabs (x - a) < t then a else x) xs k

/- Index of the last frame strictly before `i` whose mark is `true`
   (0 when there is none; frame 0 is always marked). -/
def last_written_idx (marks : List Bool) : ℕ → ℕ
  | 0 => 0
  | i + 1 => if marks.getD i false then i else last_written_idx marks i

/- Number of frames the reducer keeps. -/
def count_tail (t : ℚ) : ℚ → List ℚ → ℕ
  | _, [] => 0
  | a, x :: xs => if rabs (x - a) < t then count_tail t a xs else count_tail t x xs + 1

def count_written (t : ℚ) (xs : List ℚ) : ℕ := (clean_channel t xs).count true

/- ------------------------------------------------------------------ -/
/- Keyframe write matrix (lines 155-183) and emission stage (lines
   186-198).  The matrix is represented bone-major: `dat` holds, for each
   PSA bone slot, the 7 channel time series taken from
   sequence_data_matrix[:, bone_index, fcurve_index].  Entries start as
   np.ones; the cleaning loop (guarded by should_clean_keys) only visits
   mapped bones, so unmapped slots keep all-ones marks. -/

def bone_write_marks (clean : Bool) (t : ℚ) (mapped : Bool) (chans : List (List ℚ)) :
    List (List Bool) :=
  if clean && mapped then chans.map (clean_channel t)
  else chans.map (fun ch => List.replicate ch.length true)

def keyframe_write_matrix (clean : Bool) (t : ℚ) (mapped : List Bool)
    (dat : List (List (List ℚ))) : List (List (List Bool)) :=
  List.zipWith (bone_write_marks clean t) mapped dat

/- Emission loop (lines 186-198): a channel value becomes an explicit
   keyframe point `(frame_index, datum)` exactly when its write-matrix
   entry is set; unmapped bones are skipped entirely. -/
def emitted_from : ℕ → List Bool → List ℚ → List (ℕ × ℚ)
  | _, [], _ => []
  | _, _ :: _, [] => []
  | i, m :: ms, v :: vs =>
    if m then (i, v) :: emitted_from (i + 1) ms vs else emitted_from (i + 1) ms vs

def emitted_keyframes (marks : List Bool) (vals : List ℚ) : List (ℕ × ℚ) :=
  emitted_from 0 marks vals

def bone_emitted (mapped : Bool) (marks : List (List Bool)) (chans : List (List ℚ)) :
    List (List (ℕ × ℚ)) :=
  if mapped then List.zipWith emitted_keyframes marks chans else []

def bone_events (clean : Bool) (t : ℚ) (mapped : Bool) (chans : List (List ℚ)) :
    List (List (ℕ × ℚ)) :=
  bone_emitted mapped (bone_write_marks clean t mapped chans) chans

/- Total number of set entries in the write matrix. -/
def matrix_written (clean : Bool) (t : ℚ) (mapped : List Bool)
    (dat : List (List (List ℚ))) : ℕ :=
  ((keyframe_write_matrix clean t mapped dat).map
    (fun bm => (bm.map (fun ms => ms.count true)).sum)).sum

/- ------------------------------------------------------------------ -/
/- Bone mapping (lines 62-95).  `name_index` models
   armature_bone_names.index(name) wrapped in try/except ValueError;
   PSA bone names are taken after the (total) windows-1252 decode. -/

def name_index : List String → String → Option ℕ
  | [], _ => none
  | m :: rest, n => if m = n then some 0 else (name_index rest n).map (· + 1)

def psa_to_armature_bone_indices (psaNames armNames : List String) : List (Option ℕ) :=
  psaNames.map (name_index armNames)

/- set(psa_bone_names).difference(set(armature_bone_names)), lines 74-78. -/
def missing_bone_names (psaNames armNames : List String) : List String :=
  (psaNames.filter (fun n => decide (n ∉ armNames))).dedup

/- Keyframe events produced for one sequence: one slot per PSA bone
   (import_bones keeps a None placeholder for unmapped bones, line 89),
   and the fcurve/emission loops skip those slots. -/
def sequence_events (clean : Bool) (t : ℚ) (psaNames armNames : List String)
    (dat : List (List (List ℚ))) : List (List (List (ℕ × ℚ))) :=
  List.zipWith (fun n chans => bone_events clean t (decide (n ∈ armNames)) chans)
    psaNames dat

/- ------------------------------------------------------------------ -/
/- Bone-space conversion.  ImportBone (lines 33-42) carries the data the
   conversion uses; `parent` only matters through `is None`. -/

structure ImportBone where
  parent : Option Unit
  orig_loc : V3
  orig_quat : Quat
  post_quat : Quat
  deriving DecidableEq

/- calculate_fcurve_data (lines 44-59), statement by statement:
   q = post_quat.copy(); q.rotate(orig_quat); quat = q;
   q = post_quat.copy();
   q.rotate(key_rotation.conjugated() if parent is None else key_rotation);
   quat.rotate(q.conjugated());
   loc = key_location - orig_loc; loc.rotate(post_quat.conjugated()). -/
def calculate_fcurve_data (bone : ImportBone) (keyR : Quat) (keyL : V3) :
    ℚ × ℚ × ℚ × ℚ × ℚ × ℚ × ℚ :=
  let q0 := qrot bone.post_quat bone.orig_quat
  let q1 :=
    match bone.parent with
    | none => qrot bone.post_quat (qconj keyR)
    | some _ => qrot bone.post_quat keyR
  let quat := qrot q0 (qconj q1)
  let loc := vrot (vsub keyL bone.orig_loc) (qconj bone.post_quat)
  (quat.w, quat.x, quat.y, quat.z, loc.x, loc.y, loc.z)

/- The claim's algebraic description of the same conversion: compose
   post_quat with orig_quat; separately compose post_quat with the key
   rotation (conjugated for a root bone); left-multiply the first product
   by the conjugate of the second; translation is the offset from
   orig_loc rotated by the conjugate of post_quat. -/
def fcurve_data_spec (bone : ImportBone) (keyR : Quat) (keyL : V3) :
    ℚ × ℚ × ℚ × ℚ × ℚ × ℚ × ℚ :=
  let kr :=
    match bone.parent with
    | none => qconj keyR
    | some _ => keyR
  let quat := qmul (qconj (qmul kr bone.post_quat)) (qmul bone.orig_quat bone.post_quat)
  let loc := vrot (vsub keyL bone.orig_loc) (qconj bone.post_quat)
  (quat.w, quat.x, quat.y, quat.z, loc.x, loc.y, loc.z)

/- Rest-pose data of one armature bone (lines 97-118): matrix_local
   translation and rotation, plus the optional auxiliary custom
   properties 'orig_quat' / 'orig_loc' / 'post_quat' read on line 102. -/
structure RestBone where
  loc : V3
  quat : Quat
  aux : Option (Quat × V3 × Quat)
  deriving DecidableEq

/- Loop body of lines 97-118 for one bone; `parent` is the rest data of
   the armature parent when that parent is itself PSA-mapped (line 99). -/
def setup_import_bone (b : RestBone) (parent : Option RestBone) : ImportBone :=
  match b.aux with
  | some (oq, ol, pq) =>
    { parent := parent.map (fun _ => ()), orig_loc := ol, orig_quat := oq, post_quat := pq }
  | none =>
    match parent with
    | some p =>
      let ol := vrot (vsub b.loc p.loc) (qconj p.quat)
      let oq := qconj (qrot b.quat (qconj p.quat))
      { parent := some (), orig_loc := ol, orig_quat := oq, post_quat := qconj oq }
    | none =>
      { parent := none, orig_loc := b.loc, orig_quat := b.quat, post_quat := qconj b.quat }

/- ------------------------------------------------------------------ -/
/- Action bookkeeping (lines 120-207).  bpy.data.actions is modelled as a
   list of action datablocks; an f-curve is its (data_path, array_index)
   key together with its keyframe points. -/

structure FCurve where
  data_path : String × ℕ
  keyframe_points : List (ℕ × ℚ)
  deriving DecidableEq

structure Action where
  name : String
  fcurves : List FCurve
  psa_sequence_name : Option String
  psa_sequence_fps : Option ℚ
  use_fake_user : Bool
  deriving DecidableEq

def default_action : Action :=
  { name := "", fcurves := [], psa_sequence_name := none, psa_sequence_fps := none,
    use_fake_user := false }

/- Options of class PsaImportOptions (lines 17-27) used by the action
   bookkeeping; action_name_start is the source's action-name prefixing
   option (line 26). -/
structure PsaImportOptions where
  should_clean_keys : Bool
  should_use_fake_user : Bool
  should_overwrite : Bool
  should_write_keyframes : Bool
  should_write_metadata : Bool
  action_name_start : String
  deriving DecidableEq

/- Position of the named action in the collection (`action_name in
   bpy.data.actions` / `bpy.data.actions[action_name]`). -/
def action_index : List Action → String → Option ℕ
  | [], _ => none
  | a :: rest, nm => if a.name = nm then some 0 else (action_index rest nm).map (· + 1)

/- Blender's datablock naming: `bpy.data.actions.new(name)` keeps `name`
   when it is free, otherwise disambiguates with a ".001"-style numeric
   suffix until the name is unused.  The search is modelled with
   taken.length + 1 numbered candidates; `overflow_name` (a name longer
   than every taken name, hence certainly unused) stands in for the
   remaining unbounded search and is unreachable for real stores. -/
def pad3 (k : ℕ) : String :=
  if k < 10 then "00" ++ toString k
  else if k < 100 then "0" ++ toString k
  else toString k

def disambiguated (base : String) (k : ℕ) : String := base ++ "." ++ pad3 k

def longest_len (taken : List String) : ℕ := taken.foldr (fun s m => max s.length m) 0

def overflow_name (taken : List String) : String :=
  String.mk (List.replicate (longest_len taken + 1) 'x')

def unique_name (taken : List String) (base : String) : String :=
  if base ∈ taken then
    match (List.range (taken.length + 1)).find?
        (fun k => decide (disambiguated base (k + 1) ∉ taken)) with
    | some k => disambiguated base (k + 1)
    | none => overflow_name taken
  else base

def new_action (nm : String) : Action :=
  { name := nm, fcurves := [], psa_sequence_name := none, psa_sequence_fps := none,
    use_fake_user := false }

/- Per-sequence mutation of the chosen action, lines 132-205: when
   should_write_keyframes the existing f-curves are removed and replaced
   by the freshly written ones (`curves`); metadata custom properties are
   set when should_write_metadata; use_fake_user is always assigned. -/
def update_action (opts : PsaImportOptions) (seqName : String) (fps : ℚ)
    (curves : List FCurve) (a : Action) : Action :=
  { a with
    fcurves := if opts.should_write_keyframes then curves else a.fcurves,
    psa_sequence_name := if opts.should_write_metadata then some seqName
      else a.psa_sequence_name,
    psa_sequence_fps := if opts.should_write_metadata then some fps
      else a.psa_sequence_fps,
    use_fake_user := opts.should_use_fake_user }

def modifyAt {α : Type} : ℕ → (α → α) → List α → List α
  | _, _, [] => []
  | 0, f, a :: rest => f a :: rest
  | i + 1, f, a :: rest => a :: modifyAt i f rest

def append_new_action (opts : PsaImportOptions) (store : List Action)
    (actionName seqName : String) (fps : ℚ) (curves : List FCurve) : List Action :=
  store ++ [update_action opts seqName fps curves
    (new_action (unique_name (store.map Action.name) actionName))]

/- One iteration of the sequence loop (lines 122-207) at the level of the
   action collection.  `curves` stands for the f-curve set computed by the
   keyframe pipeline (modelled separately above). -/
def process_sequence (opts : PsaImportOptions) (store : List Action) (seqName : String)
    (fps : ℚ) (curves : List FCurve) : List Action :=
  if opts.should_overwrite then
    match action_index store (opts.action_name_start ++ seqName) with
    | some i => modifyAt i (update_action opts seqName fps curves) store
    | none => append_new_action opts store (opts.action_name_start ++ seqName) seqName fps curves
  else append_new_action opts store (opts.action_name_start ++ seqName) seqName fps curves

/- ------------------------------------------------------------------ -/
/- Sequence batch (line 30 and the loop at line 122).  Modelled from the
   spec: the PsaReader's `sequences` member (reader.py is not part of the
   sources) is a mapping from sequence name to sequence metadata whose
   lookup fails on an absent name (NotFoundError / KeyError).  The
   source's `map(lambda x: psa_reader.sequences[x], ...)` is lazy, so the
   failing lookup happens at that name's own loop iteration: earlier
   names are already processed, the exception propagates, and no later
   name is processed. -/

structure SeqInfo where
  fps : ℚ
  curves : List FCurve
  deriving DecidableEq

def seq_lookup : List (String × SeqInfo) → String → Option SeqInfo
  | [], _ => none
  | (k, v) :: rest, n => if k = n then some v else seq_lookup rest n

def process_sequences (opts : PsaImportOptions) (index : List (String × SeqInfo)) :
    List String → List Action → List Action × Option String
  | [], store => (store, none)
  | n :: rest, store =>
    match seq_lookup index n with
    | none => (store, some n)
    | some info =>
      process_sequences opts index rest (process_sequence opts store n info.fps info.curves)

/- ------------------------------------------------------------------ -/
/- Sample inputs used by witnesses and counterexamples. -/

def sample_channel : List ℚ := [0, 5, 5]

def cex_channel : List ℚ := [0, 25, 44, 10]

/- An armature bone carrying the auxiliary custom properties of line 102,
   with stored post_quat not the conjugate of the stored orig_quat. -/
def cex_aux_bone : RestBone :=
  { loc := ⟨0, 0, 0⟩, quat := ⟨1, 0, 0, 0⟩,
    aux := some (⟨0, 1, 0, 0⟩, ⟨0, 0, 0⟩, ⟨0, 1, 0, 0⟩) }

def sample_bone : RestBone :=
  { loc := ⟨1, 2, 3⟩, quat := ⟨0, 0, 1, 0⟩, aux := none }

def sample_parent_bone : RestBone :=
  { loc := ⟨0, 1, 0⟩, quat := ⟨0, 1, 0, 0⟩, aux := none }

def walk_action : Action :=
  { name := "Walk", fcurves := [⟨("pose", 0), [(0, 1)]⟩],
    psa_sequence_name := none, psa_sequence_fps := none, use_fake_user := false }

def opts_plain : PsaImportOptions :=
  { should_clean_keys := true, should_use_fake_user := false, should_overwrite := false,
    should_write_keyframes := true, should_write_metadata := true, action_name_start := "" }

def opts_overwrite : PsaImportOptions :=
  { should_clean_keys := true, should_use_fake_user := false, should_overwrite := true,
    should_write_keyframes := true, should_write_metadata := true, action_name_start := "" }

def opts_no_keys : PsaImportOptions :=
  { should_clean_keys := true, should_use_fake_user := true, should_overwrite := false,
    should_write_keyframes := false, should_write_metadata := true, action_name_start := "" }

def sample_index : List (String × SeqInfo) := [("B", ⟨30, []⟩)]

def sample_psa_names : List String := ["pelvis", "spine"]

def sample_arm_names : List String := ["pelvis"]

def sample_dat : List (List (List ℚ)) := [[[0, 5]], [[1]]]

/- ================================================================== -/
/- Theorems. -/

theorem qconj_qmul (a b : Quat) : qconj (qmul a b) = qmul (qconj b) (qconj a) := by
  ext <;> simp [qmul, qconj] <;> ring

theorem qconj_qconj (a : Quat) : qconj (qconj a) = a := by
  ext <;> simp [qconj]

theorem rabs_eq_abs (x : ℚ) : rabs x = |x| := by
  unfold rabs
  by_cases h : x < 0
  · rw [if_pos h, abs_of_neg h]
  · rw [if_neg h, abs_of_nonneg (le_of_not_lt h)]

/- The counter of `clean_frames` only matters through positivity. -/
theorem clean_frames_succ (t : ℚ) :
    ∀ (xs : List ℚ) (last : ℚ) (i : ℕ), clean_frames t last (i + 1) xs = clean_tail t last xs := by
  intro xs
  induction xs with
  | nil => intro last i; rfl
  | cons x xs ih =>
    intro last i
    by_cases h : rabs (x - last) < t
    · simp only [clean_frames, clean_tail]
      rw [if_pos ⟨Nat.succ_pos i, h⟩, if_pos h, ih]
    · simp only [clean_frames, clean_tail]
      rw [if_neg (fun hc => h hc.2), if_neg h, ih]

theorem clean_channel_cons (t x : ℚ) (xs : List ℚ) :
    clean_channel t (x :: xs) = true :: clean_tail t x xs := by
  unfold clean_channel
  simp only [clean_frames]
  rw [if_neg (fun hc => Nat.lt_irrefl 0 hc.1), clean_frames_succ]

theorem clean_tail_length (t : ℚ) :
    ∀ (xs : List ℚ) (a : ℚ), (clean_tail t a xs).length = xs.length := by
  intro xs
  induction xs with
  | nil => intro a; rfl
  | cons x xs ih =>
    intro a
    by_cases h : rabs (x - a) < t <;> simp [clean_tail, h, ih]

theorem clean_channel_length (t : ℚ) (xs : List ℚ) :
    (clean_channel t xs).length = xs.length := by
  cases xs with
  | nil => rfl
  | cons x xs => rw [clean_channel_cons]; simp [clean_tail_length]

/- A tail frame is unmarked exactly when it is within the threshold of the
   running last-written value. -/
theorem clean_tail_getD (t : ℚ) :
    ∀ (xs : List ℚ) (a : ℚ) (k : ℕ), k < xs.length →
      ((clean_tail t a xs).getD k false = false ↔
        rabs (xs.getD k 0 - last_written_state t a xs k) < t) := by
  intro xs
  induction xs with
  | nil => intro a k h; simp at h
  | cons x xs ih =>
    intro a k h
    by_cases hx : rabs (x - a) < t
    · cases k with
      | zero => simp [clean_tail, hx, last_written_state]
      | succ k =>
        have hk : k < xs.length := by simpa [Nat.succ_lt_succ_iff] using h
        simp only [clean_tail, if_pos hx, List.getD_cons_succ, last_written_state]
        exact ih a k hk
    · cases k with
      | zero => simp [clean_tail, hx, last_written_state]
      | succ k =>
        have hk : k < xs.length := by simpa [Nat.succ_lt_succ_iff] using h
        simp only [clean_tail, if_neg hx, List.getD_cons_succ, last_written_state]
        exact ih x k hk

/- The running last-written value updates exactly at marked frames. -/
theorem last_written_state_succ (t : ℚ) :
    ∀ (xs : List ℚ) (a : ℚ) (k : ℕ), k < xs.length →
      last_written_state t a xs (k + 1) =
        if rabs (xs.getD k 0 - last_written_state t a xs k) < t then last_written_state t a xs k
        else xs.getD k 0 := by
  intro xs
  induction xs with
  | nil => intro a k h; simp at h
  | cons x xs ih =>
    intro a k h
    cases k with
    | zero => simp [last_written_state]
    | succ k =>
      have hk : k < xs.length := by simpa [Nat.succ_lt_succ_iff] using h
      simp only [last_written_state, List.getD_cons_succ]
      exact ih _ k hk

theorem last_written_idx_succ (marks : List Bool) (i : ℕ) :
    last_written_idx marks (i + 1) = if marks.getD i false then i else last_written_idx marks i :=
  rfl

/- The channel value at the last marked index before frame i is the
   running last-written value the loop compares against at frame i. -/
theorem getD_last_written_idx (t x0 : ℚ) (rest : List ℚ) :
    ∀ i, 1 ≤ i → i ≤ rest.length →
      (x0 :: rest).getD (last_written_idx (clean_channel t (x0 :: rest)) i) 0
        = last_written_state t x0 rest (i - 1) := by
  intro i
  induction i with
  | zero => intro h1 _; exact absurd h1 (by omega)
  | succ i ih =>
    intro h1 h2
    by_cases hi : i = 0
    · subst hi
      simp only [last_written_idx, clean_channel_cons, List.getD_cons_zero]
      simp [last_written_state]
    · obtain ⟨j, rfl⟩ : ∃ j, i = j + 1 := ⟨i - 1, by omega⟩
      have hj : j < rest.length := by omega
      have hmark : (clean_channel t (x0 :: rest)).getD (j + 1) false
          = (clean_tail t x0 rest).getD j false := by
        rw [clean_channel_cons, List.getD_cons_succ]
      rw [last_written_idx_succ, hmark]
      by_cases hm : (clean_tail t x0 rest).getD j false
      · rw [if_pos hm]
        have hnot : ¬ rabs (rest.getD j 0 - last_written_state t x0 rest j) < t := by
          intro hlt
          have hfalse := (clean_tail_getD t rest x0 j hj).mpr hlt
          rw [hfalse] at hm
          exact absurd hm (by simp)
        rw [List.getD_cons_succ]
        have hstep := last_written_state_succ t rest x0 j hj
        rw [if_neg hnot] at hstep
        simp only [Nat.add_sub_cancel]
        exact hstep.symm
      · rw [if_neg hm]
        have hfalse : (clean_tail t x0 rest).getD j false = false := by
          cases hx : (clean_tail t x0 rest).getD j false
          · rfl
          · exact absurd hx hm
        have hlt := (clean_tail_getD t rest x0 j hj).mp hfalse
        have hstep := last_written_state_succ t rest x0 j hj
        rw [if_pos hlt] at hstep
        simp only [Nat.add_sub_cancel]
        rw [hstep]
        have hih := ih (by omega) (by omega)
        simpa [Nat.add_sub_cancel] using hih

theorem clean_channel_marks_iff_general (t : ℚ) (xs : List ℚ) (i : ℕ)
    (h1 : 0 < i) (h2 : i < xs.length) :
    ((clean_channel t xs).getD i false = false ↔
      rabs (xs.getD i 0 - xs.getD (last_written_idx (clean_channel t xs) i) 0) < t) := by
  cases xs with
  | nil => simp at h2
  | cons x0 rest =>
    obtain ⟨j, rfl⟩ : ∃ j, i = j + 1 := ⟨i - 1, by omega⟩
    have hj : j < rest.length := by simpa [Nat.succ_lt_succ_iff] using h2
    have hB := getD_last_written_idx t x0 rest (j + 1) (by omega) (by omega)
    simp only [Nat.add_sub_cancel] at hB
    rw [hB]
    have hL : (clean_channel t (x0 :: rest)).getD (j + 1) false
        = (clean_tail t x0 rest).getD j false := by
      rw [clean_channel_cons, List.getD_cons_succ]
    rw [hL, List.getD_cons_succ]
    exact clean_tail_getD t rest x0 j hj

/-- C1: with keyframe cleaning enabled, for every channel column of the
write matrix and every frame i > 0, the reducer leaves the frame unmarked
exactly when the absolute difference between the frame's value and the
value at the last frame marked written before it is strictly below the
threshold 0.001; marked frames become the new last-written value in the
single forward pass embodied by `clean_channel`. -/
theorem clean_channel_marks_iff (xs : List ℚ) (i : ℕ) (h1 : 0 < i) (h2 : i < xs.length) :
    ((clean_channel clean_threshold xs).getD i false = false ↔
      |xs.getD i 0 -
        xs.getD (last_written_idx (clean_channel clean_threshold xs) i) 0| < clean_threshold) := by
  have := clean_channel_marks_iff_general clean_threshold xs i h1 h2
  rwa [rabs_eq_abs] at this

theorem clean_channel_marks_iff_witness :
    ((clean_channel clean_threshold sample_channel).getD 2 false = false ↔
      |sample_channel.getD 2 0 -
        sample_channel.getD (last_written_idx (clean_channel clean_threshold sample_channel) 2) 0|
          < clean_threshold) :=
  clean_channel_marks_iff sample_channel 2 (by decide) (by decide)

/- List access helpers. -/

theorem getD_map_lt {α β : Type} (f : α → β) (d : β) (d0 : α) :
    ∀ (l : List α) (i : ℕ), i < l.length → (l.map f).getD i d = f (l.getD i d0) := by
  intro l
  induction l with
  | nil => intro i h; simp at h
  | cons a l ih =>
    intro i h
    cases i with
    | zero => rfl
    | succ i =>
      simp only [List.map_cons, List.getD_cons_succ]
      exact ih i (by simpa [Nat.succ_lt_succ_iff] using h)

theorem getD_zipWith_lt {α β γ : Type} (f : α → β → γ) (d : γ) (da : α) (db : β) :
    ∀ (l1 : List α) (l2 : List β) (i : ℕ), i < l1.length → i < l2.length →
      (List.zipWith f l1 l2).getD i d = f (l1.getD i da) (l2.getD i db) := by
  intro l1
  induction l1 with
  | nil => intro l2 i h1 _; simp at h1
  | cons a l1 ih =>
    intro l2 i h1 h2
    cases l2 with
    | nil => simp at h2
    | cons b l2 =>
      cases i with
      | zero => rfl
      | succ i =>
        simp only [List.zipWith_cons_cons, List.getD_cons_succ]
        exact ih l2 i (by simpa [Nat.succ_lt_succ_iff] using h1)
          (by simpa [Nat.succ_lt_succ_iff] using h2)

/- Frame 0 of every channel is marked, whatever the threshold, the
   cleaning flag and the mapping status of the bone. -/

theorem clean_channel_getD_zero (t : ℚ) (ch : List ℚ) (h : ch ≠ []) :
    (clean_channel t ch).getD 0 false = true := by
  cases ch with
  | nil => exact absurd rfl h
  | cons x xs => rw [clean_channel_cons]; rfl

theorem bone_write_marks_length (clean : Bool) (t : ℚ) (m : Bool) (chans : List (List ℚ)) :
    (bone_write_marks clean t m chans).length = chans.length := by
  unfold bone_write_marks
  by_cases h : clean && m <;> simp [h]

theorem bone_write_marks_getD_zero (clean : Bool) (t : ℚ) (m : Bool)
    (chans : List (List ℚ)) (c : ℕ) (hc : c < chans.length)
    (hne : chans.getD c [] ≠ []) :
    ((bone_write_marks clean t m chans).getD c []).getD 0 false = true := by
  unfold bone_write_marks
  by_cases h : clean && m
  · rw [if_pos h, getD_map_lt (clean_channel t) [] [] chans c hc]
    exact clean_channel_getD_zero t (chans.getD c []) hne
  · rw [if_neg h, getD_map_lt (fun ch => List.replicate ch.length true) [] [] chans c hc]
    have hpos : 0 < (chans.getD c []).length := List.length_pos.mpr hne
    cases hlen : (chans.getD c []).length with
    | zero => omega
    | succ n => simp [List.replicate]

/-- C2: for every sequence with at least one frame, every mapped bone and
every channel, frame 0 of the keyframe write matrix (cleaning enabled) is
marked written, for any threshold at least 0 and regardless of the
channel's values. -/
theorem write_matrix_frame_zero_written (t : ℚ) (mapped : List Bool)
    (dat : List (List (List ℚ))) (b c : ℕ)
    (ht : 0 ≤ t) (hb1 : b < mapped.length) (hb2 : b < dat.length)
    (hm : mapped.getD b false = true)
    (hc : c < (dat.getD b []).length) (hne : (dat.getD b []).getD c [] ≠ []) :
    (((keyframe_write_matrix true t mapped dat).getD b []).getD c []).getD 0 false = true := by
  unfold keyframe_write_matrix
  rw [getD_zipWith_lt (bone_write_marks true t) [] false [] mapped dat b hb1 hb2]
  exact bone_write_marks_getD_zero true t (mapped.getD b false) (dat.getD b []) c hc hne

theorem write_matrix_frame_zero_written_witness :
    (((keyframe_write_matrix true 1 [true] [[[0, 5, 5]]]).getD 0 []).getD 0 []).getD 0 false
      = true :=
  write_matrix_frame_zero_written 1 [true] [[[0, 5, 5]]] 0 0 (by decide) (by decide)
    (by decide) (by decide) (by decide) (by decide)

/- Every frame of a replicate-true channel is emitted with its value. -/

theorem emitted_from_replicate_mem :
    ∀ (vs : List ℚ) (i j : ℕ), j < vs.length →
      (i + j, vs.getD j 0) ∈ emitted_from i (List.replicate vs.length true) vs := by
  intro vs
  induction vs with
  | nil => intro i j h; simp at h
  | cons v vs ih =>
    intro i j h
    cases j with
    | zero =>
      simp only [List.length_cons, List.replicate, emitted_from, if_pos rfl]
      exact List.mem_cons_self _ _
    | succ j =>
      have hj : j < vs.length := by simpa [Nat.succ_lt_succ_iff] using h
      have hmem := ih (i + 1) j hj
      have harith : i + 1 + j = i + (j + 1) := by omega
      rw [harith] at hmem
      simp only [List.length_cons, List.replicate, emitted_from, if_pos rfl,
        List.getD_cons_succ]
      exact List.mem_cons_of_mem _ hmem

/-- C9: with keyframe cleaning disabled (and keyframe writing on), every
frame of every channel of every mapped bone is marked written in the
write matrix and is emitted as an explicit keyframe. -/
theorem clean_disabled_all_written (t : ℚ) (mapped : List Bool)
    (dat : List (List (List ℚ))) (b c frame : ℕ)
    (hb1 : b < mapped.length) (hb2 : b < dat.length)
    (hm : mapped.getD b false = true)
    (hc : c < (dat.getD b []).length)
    (hframe : frame < ((dat.getD b []).getD c []).length) :
    (((keyframe_write_matrix false t mapped dat).getD b []).getD c [])
        = List.replicate ((dat.getD b []).getD c []).length true
    ∧ (frame, ((dat.getD b []).getD c []).getD frame 0) ∈
        emitted_keyframes
          (((keyframe_write_matrix false t mapped dat).getD b []).getD c [])
          ((dat.getD b []).getD c []) := by
  have hentry : ((keyframe_write_matrix false t mapped dat).getD b []).getD c []
      = List.replicate ((dat.getD b []).getD c []).length true := by
    unfold keyframe_write_matrix
    rw [getD_zipWith_lt (bone_write_marks false t) [] false [] mapped dat b hb1 hb2]
    unfold bone_write_marks
    rw [if_neg (by simp), getD_map_lt (fun ch => List.replicate ch.length true) [] []
      (dat.getD b []) c hc]
  refine ⟨hentry, ?_⟩
  rw [hentry]
  unfold emitted_keyframes
  have := emitted_from_replicate_mem ((dat.getD b []).getD c []) 0 frame hframe
  simpa using this

theorem clean_disabled_all_written_witness :
    (((keyframe_write_matrix false 1 [true] [[[0, 5, 5]]]).getD 0 []).getD 0 [])
        = List.replicate (([[[0, 5, 5]]].getD 0 []).getD 0 [] : List ℚ).length true
    ∧ ((1 : ℕ), (([[[(0 : ℚ), 5, 5]]].getD 0 []).getD 0 []).getD 1 0) ∈
        emitted_keyframes
          (((keyframe_write_matrix false 1 [true] [[[0, 5, 5]]]).getD 0 []).getD 0 [])
          (([[[(0 : ℚ), 5, 5]]].getD 0 []).getD 0 []) :=
  clean_disabled_all_written 1 [true] [[[0, 5, 5]]] 0 0 1 (by decide) (by decide) (by decide)
    (by decide) (by decide)

/- Counting kept frames. -/

theorem count_true_clean_tail (t : ℚ) :
    ∀ (xs : List ℚ) (a : ℚ), (clean_tail t a xs).count true = count_tail t a xs := by
  intro xs
  induction xs with
  | nil => intro a; rfl
  | cons x xs ih =>
    intro a
    by_cases h : rabs (x - a) < t <;> simp [clean_tail, count_tail, h, ih, List.count_cons]

theorem count_written_cons (t x : ℚ) (xs : List ℚ) :
    count_written t (x :: xs) = count_tail t x xs + 1 := by
  unfold count_written
  rw [clean_channel_cons]
  simp [List.count_cons, count_true_clean_tail]

/- Mutual invariant for threshold monotonicity.  With 0 ≤ t1 and
   2*t1 ≤ t2: (S) when the two runs' last-written values are within
   t2 - t1 of each other, the t2 run keeps at most as many frames;
   (T) in general it keeps at most one more frame. -/
theorem count_tail_mono_aux (t1 t2 : ℚ) (h0 : 0 ≤ t1) (h2 : 2 * t1 ≤ t2) :
    ∀ xs : List ℚ,
      (∀ a b : ℚ, |a - b| ≤ t2 - t1 → count_tail t2 b xs ≤ count_tail t1 a xs)
      ∧ (∀ a b : ℚ, count_tail t2 b xs ≤ 1 + count_tail t1 a xs) := by
  intro xs
  induction xs with
  | nil => exact ⟨fun a b _ => le_refl 0, fun a b => by simp [count_tail]⟩
  | cons x xs ih =>
    obtain ⟨ihS, ihT⟩ := ih
    constructor
    · intro a b hab
      by_cases h1x : rabs (x - a) < t1
      · have h1a : |x - a| < t1 := by rwa [rabs_eq_abs] at h1x
        have h2x : rabs (x - b) < t2 := by
          rw [rabs_eq_abs]
          have htri : |x - b| ≤ |x - a| + |a - b| := abs_sub_le x a b
          linarith
        simp only [count_tail, if_pos h1x, if_pos h2x]
        exact ihS a b hab
      · by_cases h2x : rabs (x - b) < t2
        · simp only [count_tail, if_neg h1x, if_pos h2x]
          have := ihT x b
          omega
        · simp only [count_tail, if_neg h1x, if_neg h2x]
          have hxx : |x - x| ≤ t2 - t1 := by
            simp only [sub_self, abs_zero]
            linarith
          have := ihS x x hxx
          omega
    · intro a b
      by_cases h2x : rabs (x - b) < t2
      · by_cases h1x : rabs (x - a) < t1
        · simp only [count_tail, if_pos h2x, if_pos h1x]
          exact ihT a b
        · simp only [count_tail, if_pos h2x, if_neg h1x]
          have := ihT x b
          omega
      · by_cases h1x : rabs (x - a) < t1
        · have h1a : |x - a| < t1 := by rwa [rabs_eq_abs] at h1x
          simp only [count_tail, if_neg h2x, if_pos h1x]
          have hax : |a - x| ≤ t2 - t1 := by
            rw [abs_sub_comm]
            linarith
          have := ihS a x hax
          omega
        · simp only [count_tail, if_neg h2x, if_neg h1x]
          have := ihT x x
          omega

theorem count_written_mono (t1 t2 : ℚ) (h0 : 0 ≤ t1) (h2 : 2 * t1 ≤ t2) (xs : List ℚ) :
    count_written t2 xs ≤ count_written t1 xs := by
  cases xs with
  | nil => exact le_refl _
  | cons x xs =>
    rw [count_written_cons, count_written_cons]
    have hxx : |x - x| ≤ t2 - t1 := by
      simp only [sub_self, abs_zero]
      linarith
    have := (count_tail_mono_aux t1 t2 h0 h2 xs).1 x x hxx
    omega

theorem count_channels_mono (t1 t2 : ℚ) (h0 : 0 ≤ t1) (h2 : 2 * t1 ≤ t2) (clean : Bool)
    (m : Bool) (chans : List (List ℚ)) :
    ((bone_write_marks clean t2 m chans).map (fun ms => ms.count true)).sum
      ≤ ((bone_write_marks clean t1 m chans).map (fun ms => ms.count true)).sum := by
  unfold bone_write_marks
  by_cases h : clean && m
  · rw [if_pos h, if_pos h]
    induction chans with
    | nil => exact le_refl 0
    | cons ch chans ih =>
      simp only [List.map_cons, List.sum_cons, List.map_map]
      have hch : (clean_channel t2 ch).count true ≤ (clean_channel t1 ch).count true :=
        count_written_mono t1 t2 h0 h2 ch
      have := ih
      simp only [List.map_map] at this
      omega
  · rw [if_neg h, if_neg h]

/-- C8 counterexample: on the channel [0, 25, 44, 10] the reducer keeps 2
frames at threshold 20 but 3 frames at the larger threshold 30, so a
larger threshold can produce strictly more written keyframes. -/
theorem threshold_monotonicity_counterexample :
    (20 : ℚ) ≤ 30
    ∧ matrix_written true 20 [true] [[cex_channel]]
        < matrix_written true 30 [true] [[cex_channel]] := by
  constructor
  · norm_num
  · norm_num [matrix_written, keyframe_write_matrix, bone_write_marks, clean_channel,
      clean_frames, rabs, cex_channel]

/-- C8 (amended): for every fixed data matrix, running the reducer with a
larger threshold that is at least twice the smaller one (both at least 0)
never produces more written keyframes; for threshold ratios below 2 the
count can increase, as the counterexample shows. -/
theorem threshold_monotonicity_doubled (t1 t2 : ℚ) (h0 : 0 ≤ t1) (h2 : 2 * t1 ≤ t2)
    (clean : Bool) (mapped : List Bool) (dat : List (List (List ℚ))) :
    matrix_written clean t2 mapped dat ≤ matrix_written clean t1 mapped dat := by
  unfold matrix_written keyframe_write_matrix
  induction mapped generalizing dat with
  | nil => simp
  | cons m mapped ih =>
    cases dat with
    | nil => simp
    | cons chans dat =>
      simp only [List.zipWith_cons_cons, List.map_cons, List.sum_cons]
      have hbone := count_channels_mono t1 t2 h0 h2 clean m chans
      have hrest := ih dat
      omega

theorem threshold_monotonicity_doubled_witness :
    matrix_written true 2 [true] [[sample_channel]]
      ≤ matrix_written true 1 [true] [[sample_channel]] :=
  threshold_monotonicity_doubled 1 2 (by norm_num) (by norm_num) true [true] [[sample_channel]]

/-- C3: for every mapped bone and raw key (world rotation Kr, world
translation Kt), the conversion of calculate_fcurve_data equals the
claim's formula: compose post_quat with orig_quat; separately compose
post_quat with Kr conjugated when the bone has no mapped parent and with
Kr itself otherwise; right-compose the first product with the conjugate
of that second running product; the translation is (Kt - orig_loc)
rotated by the conjugate of post_quat; exactly 7 channel values
(w, x, y, z, x, y, z) result. -/
theorem calculate_fcurve_data_eq_spec (bone : ImportBone) (keyR : Quat) (keyL : V3) :
    calculate_fcurve_data bone keyR keyL = fcurve_data_spec bone keyR keyL := by
  cases hb : bone.parent <;>
    simp [calculate_fcurve_data, fcurve_data_spec, qrot, hb]

/-- C4 counterexample: an armature bone carrying the auxiliary rest-pose
custom properties of line 102 gets its orig/post rotations verbatim from
those properties, so post_quat need not be the conjugate of orig_quat and
orig_quat need not be the bone's rest rotation. -/
theorem setup_import_bone_aux_counterexample :
    (setup_import_bone cex_aux_bone none).post_quat
        ≠ qconj (setup_import_bone cex_aux_bone none).orig_quat
    ∧ (setup_import_bone cex_aux_bone none).orig_quat ≠ cex_aux_bone.quat := by
  constructor
  · intro h
    have hx := congrArg Quat.x h
    norm_num [setup_import_bone, qconj, cex_aux_bone] at hx
  · intro h
    have hw := congrArg Quat.w h
    norm_num [setup_import_bone, cex_aux_bone] at hw

/-- C4 (amended): for every target-skeleton bone with a PSA counterpart
that carries no stored auxiliary rest-transform data: with a PSA-mapped
parent, orig_quat is the bone's rest rotation composed with the parent's
inverse rest rotation (the parent-local-to-bone-local rotation) and
orig_loc is the parent-local-space offset between the rest positions;
with no mapped parent they are the bone's own rest values; and post_quat
is the conjugate of orig_quat. -/
theorem setup_import_bone_rest_spec (b : RestBone) (p : Option RestBone) (h : b.aux = none) :
    (setup_import_bone b p).orig_quat
        = (match p with
           | some pp => qmul (qconj b.quat) pp.quat
           | none => b.quat)
    ∧ (setup_import_bone b p).orig_loc
        = (match p with
           | some pp => vrot (vsub b.loc pp.loc) (qconj pp.quat)
           | none => b.loc)
    ∧ (setup_import_bone b p).post_quat = qconj (setup_import_bone b p).orig_quat := by
  obtain ⟨loc, quat, aux⟩ := b
  dsimp only at h
  subst h
  cases p with
  | none => exact ⟨rfl, rfl, rfl⟩
  | some pp =>
    refine ⟨?_, rfl, rfl⟩
    show qconj (qrot quat (qconj pp.quat)) = qmul (qconj quat) pp.quat
    rw [qrot, qconj_qmul, qconj_qconj]

theorem setup_import_bone_rest_spec_witness :
    (setup_import_bone sample_bone (some sample_parent_bone)).orig_quat
        = qmul (qconj sample_bone.quat) sample_parent_bone.quat
    ∧ (setup_import_bone sample_bone (some sample_parent_bone)).orig_loc
        = vrot (vsub sample_bone.loc sample_parent_bone.loc) (qconj sample_parent_bone.quat)
    ∧ (setup_import_bone sample_bone (some sample_parent_bone)).post_quat
        = qconj (setup_import_bone sample_bone (some sample_parent_bone)).orig_quat :=
  setup_import_bone_rest_spec sample_bone (some sample_parent_bone) rfl

/- Bone mapping lemmas. -/

theorem name_index_eq_none_iff : ∀ (l : List String) (n : String),
    name_index l n = none ↔ n ∉ l := by
  intro l
  induction l with
  | nil => intro n; simp [name_index]
  | cons m rest ih =>
    intro n
    by_cases h : m = n
    · subst h
      simp [name_index]
    · simp only [name_index, if_neg h, Option.map_eq_none', ih, List.mem_cons]
      constructor
      · rintro hr (hnm | hmem)
        · exact h hnm.symm
        · exact hr hmem
      · intro hno hmem
        exact hno (Or.inr hmem)

theorem emitted_head_mem (marks : List Bool) (vals : List ℚ)
    (hm : marks.getD 0 false = true) (hv : vals ≠ []) :
    (0, vals.getD 0 0) ∈ emitted_keyframes marks vals := by
  cases marks with
  | nil => simp at hm
  | cons m ms =>
    cases vals with
    | nil => exact absurd rfl hv
    | cons v vs =>
      have hm2 : m = true := by simpa using hm
      subst hm2
      simp [emitted_keyframes, emitted_from]

/-- C5: an import where some PSA bone names have no exact armature match
still completes (the embedded pipeline is total, matching the caught
ValueError of lines 68-71): the collected warning set is exactly the PSA
names missing from the armature; every unmapped PSA bone keeps its slot
(a `none` entry) in the index map and in the per-bone event table so PSA
bone indices stay aligned; no keyframe event is produced for an unmapped
slot; and frame 0 of every nonempty channel of every mapped bone is still
written. -/
theorem unmapped_bones_skipped_mapped_written (clean : Bool) (t : ℚ)
    (psaNames armNames : List String) (dat : List (List (List ℚ)))
    (hlen : dat.length = psaNames.length) :
    (psa_to_armature_bone_indices psaNames armNames).length = psaNames.length
    ∧ (sequence_events clean t psaNames armNames dat).length = psaNames.length
    ∧ (∀ n, n ∈ missing_bone_names psaNames armNames ↔ n ∈ psaNames ∧ n ∉ armNames)
    ∧ (∀ b, b < psaNames.length →
        ((psa_to_armature_bone_indices psaNames armNames).getD b none = none
          ↔ psaNames.getD b "" ∉ armNames))
    ∧ (∀ b, b < psaNames.length → psaNames.getD b "" ∉ armNames →
        (sequence_events clean t psaNames armNames dat).getD b [] = [])
    ∧ (∀ b c, b < psaNames.length → psaNames.getD b "" ∈ armNames →
        c < (dat.getD b []).length → (dat.getD b []).getD c [] ≠ [] →
        (0, ((dat.getD b []).getD c []).getD 0 0) ∈
          ((sequence_events clean t psaNames armNames dat).getD b []).getD c []) := by
  refine ⟨?_, ?_, ?_, ?_, ?_, ?_⟩
  · simp [psa_to_armature_bone_indices]
  · simp [sequence_events, hlen]
  · intro n
    simp [missing_bone_names, List.mem_dedup, List.mem_filter]
  · intro b hb
    unfold psa_to_armature_bone_indices
    rw [getD_map_lt (name_index armNames) none "" psaNames b hb]
    exact name_index_eq_none_iff armNames (psaNames.getD b "")
  · intro b hb hnot
    unfold sequence_events
    rw [getD_zipWith_lt (fun n chans => bone_events clean t (decide (n ∈ armNames)) chans)
      [] "" [] psaNames dat b hb (by omega)]
    rw [decide_eq_false hnot]
    simp [bone_events, bone_emitted]
  · intro b c hb hmem hc hne
    unfold sequence_events
    rw [getD_zipWith_lt (fun n chans => bone_events clean t (decide (n ∈ armNames)) chans)
      [] "" [] psaNames dat b hb (by omega)]
    rw [decide_eq_true hmem]
    simp only [bone_events, bone_emitted, if_pos]
    have hmlen : c < (bone_write_marks clean t true (dat.getD b [])).length := by
      rw [bone_write_marks_length]; exact hc
    rw [getD_zipWith_lt emitted_keyframes [] [] [] _ (dat.getD b []) c hmlen hc]
    exact emitted_head_mem _ _ (bone_write_marks_getD_zero clean t true (dat.getD b []) c hc hne)
      hne

theorem unmapped_bones_skipped_mapped_written_witness :
    (psa_to_armature_bone_indices sample_psa_names sample_arm_names).length
        = sample_psa_names.length
    ∧ (sequence_events true 1 sample_psa_names sample_arm_names sample_dat).length
        = sample_psa_names.length
    ∧ (∀ n, n ∈ missing_bone_names sample_psa_names sample_arm_names
        ↔ n ∈ sample_psa_names ∧ n ∉ sample_arm_names)
    ∧ (∀ b, b < sample_psa_names.length →
        ((psa_to_armature_bone_indices sample_psa_names sample_arm_names).getD b none = none
          ↔ sample_psa_names.getD b "" ∉ sample_arm_names))
    ∧ (∀ b, b < sample_psa_names.length →
        sample_psa_names.getD b "" ∉ sample_arm_names →
        (sequence_events true 1 sample_psa_names sample_arm_names sample_dat).getD b [] = [])
    ∧ (∀ b c, b < sample_psa_names.length →
        sample_psa_names.getD b "" ∈ sample_arm_names →
        c < (sample_dat.getD b []).length → (sample_dat.getD b []).getD c [] ≠ [] →
        (0, ((sample_dat.getD b []).getD c []).getD 0 0) ∈
          ((sequence_events true 1 sample_psa_names sample_arm_names sample_dat).getD b
            []).getD c []) :=
  unmapped_bones_skipped_mapped_written true 1 sample_psa_names sample_arm_names sample_dat rfl

/- Action bookkeeping lemmas. -/

theorem length_le_longest : ∀ (taken : List String), ∀ s ∈ taken, s.length ≤ longest_len taken := by
  intro taken
  induction taken with
  | nil => intro s hs; simp at hs
  | cons a l ih =>
    intro s hs
    show s.length ≤ max a.length (longest_len l)
    rcases List.mem_cons.mp hs with rfl | hmem
    · exact le_max_left _ _
    · exact le_trans (ih s hmem) (le_max_right _ _)

theorem overflow_name_not_mem (taken : List String) : overflow_name taken ∉ taken := by
  intro hmem
  have hle := length_le_longest taken _ hmem
  have hlen : (overflow_name taken).length = longest_len taken + 1 := by
    show (String.mk (List.replicate (longest_len taken + 1) 'x')).length = longest_len taken + 1
    simp [String.length]
  omega

theorem unique_name_not_mem (taken : List String) (base : String) :
    unique_name taken base ∉ taken := by
  unfold unique_name
  by_cases hb : base ∈ taken
  · rw [if_pos hb]
    cases hf : (List.range (taken.length + 1)).find?
        (fun k => decide (disambiguated base (k + 1) ∉ taken)) with
    | none => exact overflow_name_not_mem taken
    | some k =>
      have hp := List.find?_some hf
      exact of_decide_eq_true hp
  · rw [if_neg hb]; exact hb

theorem modifyAt_length {α : Type} : ∀ (l : List α) (i : ℕ) (f : α → α),
    (modifyAt i f l).length = l.length := by
  intro l
  induction l with
  | nil => intro i f; cases i <;> rfl
  | cons a l ih =>
    intro i f
    cases i with
    | zero => simp [modifyAt]
    | succ j => simp [modifyAt, ih]

theorem modifyAt_getD_self {α : Type} (d : α) : ∀ (l : List α) (i : ℕ) (f : α → α),
    i < l.length → (modifyAt i f l).getD i d = f (l.getD i d) := by
  intro l
  induction l with
  | nil => intro i f h; simp at h
  | cons a l ih =>
    intro i f h
    cases i with
    | zero => rfl
    | succ j =>
      simp only [modifyAt, List.getD_cons_succ]
      exact ih j f (by simpa [Nat.succ_lt_succ_iff] using h)

theorem modifyAt_getD_ne {α : Type} (d : α) : ∀ (l : List α) (i j : ℕ) (f : α → α),
    j ≠ i → (modifyAt i f l).getD j d = l.getD j d := by
  intro l
  induction l with
  | nil => intro i j f h; cases i <;> rfl
  | cons a l ih =>
    intro i j f h
    cases i with
    | zero =>
      cases j with
      | zero => exact absurd rfl h
      | succ j2 => simp [modifyAt]
    | succ i2 =>
      cases j with
      | zero => rfl
      | succ j2 =>
        simp only [modifyAt, List.getD_cons_succ]
        exact ih i2 j2 f (fun he => h (by rw [he]))

theorem action_index_some_lt : ∀ (l : List Action) (nm : String) (i : ℕ),
    action_index l nm = some i → i < l.length := by
  intro l
  induction l with
  | nil => intro nm i h; simp [action_index] at h
  | cons a l ih =>
    intro nm i h
    by_cases ha : a.name = nm
    · simp only [action_index, if_pos ha, Option.some_inj] at h
      simp only [List.length_cons]
      omega
    · simp only [action_index, if_neg ha] at h
      cases hr : action_index l nm with
      | none => rw [hr] at h; simp at h
      | some j =>
        rw [hr] at h
        simp only [Option.map_some', Option.some_inj] at h
        have := ih nm j hr
        simp only [List.length_cons]
        omega

theorem action_index_of_mem : ∀ (l : List Action) (nm : String),
    (∃ a, a ∈ l ∧ a.name = nm) → ∃ i, action_index l nm = some i := by
  intro l
  induction l with
  | nil =>
    rintro nm ⟨a, ha, _⟩
    simp at ha
  | cons b l ih =>
    rintro nm ⟨a, ha, hname⟩
    by_cases hb : b.name = nm
    · exact ⟨0, by simp [action_index, hb]⟩
    · rcases List.mem_cons.mp ha with rfl | hmem
      · exact absurd hname hb
      · obtain ⟨i, hi⟩ := ih nm ⟨a, hmem, hname⟩
        exact ⟨i + 1, by simp [action_index, hb, hi]⟩

/-- C6: for a sequence whose prefixed action name is already taken, with
should_overwrite false a brand-new action is appended under a fresh
disambiguated name and every pre-existing action (its f-curves and
keyframes included) is left exactly as it was; with should_overwrite true
the existing action is reused in place (no new action is created), its
f-curve data replaced by the freshly written curves, and all other
actions are untouched. -/
theorem action_overwrite_policy (opts : PsaImportOptions) (store : List Action)
    (seqName : String) (fps : ℚ) (curves : List FCurve)
    (hpresent : ∃ a, a ∈ store ∧ a.name = opts.action_name_start ++ seqName) :
    (opts.should_overwrite = false →
      ∃ x, process_sequence opts store seqName fps curves = store ++ [x]
        ∧ x.name ∉ store.map Action.name)
    ∧ (opts.should_overwrite = true →
      ∃ i, i < store.length
        ∧ action_index store (opts.action_name_start ++ seqName) = some i
        ∧ process_sequence opts store seqName fps curves
            = modifyAt i (update_action opts seqName fps curves) store
        ∧ (process_sequence opts store seqName fps curves).length = store.length
        ∧ (opts.should_write_keyframes = true →
            ((process_sequence opts store seqName fps curves).getD i default_action).fcurves
              = curves)
        ∧ ∀ j, j ≠ i →
            (process_sequence opts store seqName fps curves).getD j default_action
              = store.getD j default_action) := by
  constructor
  · intro hov
    have hps : process_sequence opts store seqName fps curves
        = append_new_action opts store (opts.action_name_start ++ seqName) seqName fps curves := by
      unfold process_sequence
      rw [hov, if_neg (by simp)]
    refine ⟨update_action opts seqName fps curves
      (new_action (unique_name (store.map Action.name) (opts.action_name_start ++ seqName))),
      hps, ?_⟩
    exact unique_name_not_mem (store.map Action.name) (opts.action_name_start ++ seqName)
  · intro hov
    obtain ⟨i, hi⟩ := action_index_of_mem store _ hpresent
    have hlt := action_index_some_lt store _ i hi
    have hps : process_sequence opts store seqName fps curves
        = modifyAt i (update_action opts seqName fps curves) store := by
      unfold process_sequence
      rw [hov, if_pos rfl, hi]
    refine ⟨i, hlt, hi, hps, ?_, ?_, ?_⟩
    · rw [hps, modifyAt_length]
    · intro hwk
      rw [hps, modifyAt_getD_self default_action store i _ hlt]
      simp [update_action, hwk]
    · intro j hj
      rw [hps]
      exact modifyAt_getD_ne default_action store i j _ hj

theorem action_overwrite_policy_witness :
    ∃ x, process_sequence opts_plain [walk_action] "Walk" 30 [] = [walk_action] ++ [x]
      ∧ x.name ∉ [walk_action].map Action.name :=
  (action_overwrite_policy opts_plain [walk_action] "Walk" 30 []
    ⟨walk_action, by simp, rfl⟩).1 rfl

/-- C10: with should_write_keyframes false an action is still created (or
reused under should_overwrite), the metadata custom properties and the
use_fake_user flag are still applied according to the options, and no
f-curve is created, removed or modified: a reused action keeps all of its
prior f-curves and keyframes, and a newly created action has none. -/
theorem no_keyframes_still_creates_action (opts : PsaImportOptions) (store : List Action)
    (seqName : String) (fps : ℚ) (curves : List FCurve)
    (hwk : opts.should_write_keyframes = false) :
    (∀ i, opts.should_overwrite = true →
      action_index store (opts.action_name_start ++ seqName) = some i →
      (process_sequence opts store seqName fps curves).length = store.length
      ∧ ((process_sequence opts store seqName fps curves).getD i default_action).fcurves
          = (store.getD i default_action).fcurves
      ∧ ((process_sequence opts store seqName fps curves).getD i
            default_action).psa_sequence_name
          = (if opts.should_write_metadata then some seqName
             else (store.getD i default_action).psa_sequence_name)
      ∧ ((process_sequence opts store seqName fps curves).getD i
            default_action).psa_sequence_fps
          = (if opts.should_write_metadata then some fps
             else (store.getD i default_action).psa_sequence_fps)
      ∧ ((process_sequence opts store seqName fps curves).getD i
            default_action).use_fake_user
          = opts.should_use_fake_user
      ∧ (∀ j, j ≠ i → (process_sequence opts store seqName fps curves).getD j default_action
          = store.getD j default_action))
    ∧ (opts.should_overwrite = false
        ∨ action_index store (opts.action_name_start ++ seqName) = none →
      ∃ x, process_sequence opts store seqName fps curves = store ++ [x]
        ∧ x.fcurves = []
        ∧ x.psa_sequence_name = (if opts.should_write_metadata then some seqName else none)
        ∧ x.psa_sequence_fps = (if opts.should_write_metadata then some fps else none)
        ∧ x.use_fake_user = opts.should_use_fake_user) := by
  constructor
  · intro i hov hidx
    have hlt := action_index_some_lt store _ i hidx
    have hps : process_sequence opts store seqName fps curves
        = modifyAt i (update_action opts seqName fps curves) store := by
      unfold process_sequence
      rw [hov, if_pos rfl, hidx]
    have hself := modifyAt_getD_self default_action store i
      (update_action opts seqName fps curves) hlt
    refine ⟨by rw [hps, modifyAt_length], ?_, ?_, ?_, ?_, ?_⟩
    · rw [hps, hself]
      simp [update_action, hwk]
    · rw [hps, hself]
      simp [update_action]
    · rw [hps, hself]
      simp [update_action]
    · rw [hps, hself]
      simp [update_action]
    · intro j hj
      rw [hps]
      exact modifyAt_getD_ne default_action store i j _ hj
  · intro hcase
    have hps : process_sequence opts store seqName fps curves
        = append_new_action opts store (opts.action_name_start ++ seqName) seqName fps
            curves := by
      unfold process_sequence
      rcases hcase with hov | hidx
      · rw [hov, if_neg (by simp)]
      · by_cases hov : opts.should_overwrite = true
        · rw [hov, if_pos rfl, hidx]
        · rw [if_neg (fun hc => hov hc)]
    refine ⟨update_action opts seqName fps curves
      (new_action (unique_name (store.map Action.name) (opts.action_name_start ++ seqName))),
      hps, ?_, ?_, ?_, ?_⟩
    · simp [update_action, new_action, hwk]
    · simp [update_action, new_action]
    · simp [update_action, new_action]
    · simp [update_action, new_action]

theorem no_keyframes_still_creates_action_witness :
    ∃ x, process_sequence opts_no_keys [walk_action] "Walk" 30 [] = [walk_action] ++ [x]
      ∧ x.fcurves = []
      ∧ x.psa_sequence_name
          = (if opts_no_keys.should_write_metadata then some "Walk" else none)
      ∧ x.psa_sequence_fps = (if opts_no_keys.should_write_metadata then some 30 else none)
      ∧ x.use_fake_user = opts_no_keys.should_use_fake_user :=
  (no_keyframes_still_creates_action opts_no_keys [walk_action] "Walk" 30 [] rfl).2
    (Or.inl rfl)

/-- C7 counterexample: with requested names ["A", "B"] where "A" is
absent from the reader's index but "B" is present, the import stops at
"A": the resulting action collection is empty, so the other requested
sequence "B" is not processed and no action is produced for it,
contradicting per-sequence isolation. -/
theorem missing_sequence_aborts_rest_counterexample :
    seq_lookup sample_index "B" = some ⟨30, []⟩
    ∧ process_sequences opts_plain sample_index ["A", "B"] [] = ([], some "A") := by
  constructor
  · rfl
  · rfl

/-- C7 (amended): a requested sequence name absent from the reader's
index is fatal for that sequence and for every later requested sequence
in the batch: the names before the first missing one are processed
normally, the missing name aborts the loop, and no later name is
processed (the lazy map of line 30 raises at that iteration). -/
theorem missing_sequence_prefix_processed (opts : PsaImportOptions)
    (index : List (String × SeqInfo)) (pre post : List String) (bad : String)
    (store : List Action)
    (hpre : ∀ n ∈ pre, (seq_lookup index n).isSome)
    (hbad : seq_lookup index bad = none) :
    process_sequences opts index (pre ++ bad :: post) store
      = ((process_sequences opts index pre store).1, some bad) := by
  revert hpre
  induction pre generalizing store with
  | nil =>
    intro hpre
    simp only [List.nil_append, process_sequences, hbad]
  | cons n pre ih =>
    intro hpre
    have hn : (seq_lookup index n).isSome := hpre n (List.mem_cons_self n pre)
    obtain ⟨info, hinfo⟩ := Option.isSome_iff_exists.mp hn
    simp only [List.cons_append, process_sequences, hinfo]
    exact ih _ (fun m hm => hpre m (List.mem_cons_of_mem n hm))

theorem missing_sequence_prefix_processed_witness :
    process_sequences opts_plain sample_index (["B"] ++ "A" :: []) []
      = ((process_sequences opts_plain sample_index ["B"] []).1, some "A") :=
  missing_sequence_prefix_processed opts_plain sample_index ["B"] [] "A" []
    (by decide) (by decide)
